import Mathlib

/-!
# A verification model of the `splay-tree-rs` library

This file embeds the node- and tree-level algorithms of the splay tree
(`src/node.rs`, `src/tree/splay_tree.rs`, `src/tree/entry.rs`) as pure Lean
functions and proves the specified properties about them.

The Rust code links nodes with `left`/`right` owning pointers and a
non-owning `parent` back-reference.  We embed a node in focus together with
its chain of ancestors as a zipper: the focused subtree is given by its
components (left subtree, key, value, right subtree) — a `&mut Node` always
points at a real node — and the path to the root is a list of `PathEntry`
records, each holding the side on which the focus hangs off that ancestor,
the ancestor's key and value, and the ancestor's other subtree.  The parent
back-reference of the source corresponds to the head of the path; an empty
path is a node with `parent == None`, i.e. the root.
-/

namespace SplayRs

/-- The shape of a subtree: `Node` of the source, with `left`/`right`
owning links inlined.  `leaf` is an empty child slot (`None`). -/
inductive Tree (K V : Type) where
  | leaf : Tree K V
  | node (left : Tree K V) (key : K) (value : V) (right : Tree K V) : Tree K V
  deriving DecidableEq, Repr

/-- Which child slot of the parent the focused node occupies
(`is_left` / `is_right` of the source). -/
inductive Dir where
  | left : Dir
  | right : Dir
  deriving DecidableEq, Repr

/-- One ancestor on the path from a focused node to the root: the side the
focus hangs on, the ancestor's key and value, and its other subtree. -/
structure PathEntry (K V : Type) where
  d : Dir
  key : K
  value : V
  other : Tree K V
  deriving DecidableEq, Repr

/-- The chain of parent back-references from a focused node up to the root. -/
abbrev Path (K V : Type) := List (PathEntry K V)

open Tree

variable {K V : Type}

/-- Rebuild the whole tree from a focused subtree and its ancestor path,
performing no rotation.  This is the reading-off of the pointer structure;
it is not an operation of the source, only the meaning of a zipper. -/
def plug : Tree K V → Path K V → Tree K V
  | t, [] => t
  | t, ⟨.left, k, v, o⟩ :: p => plug (node t k v o) p
  | t, ⟨.right, k, v, o⟩ :: p => plug (node o k v t) p

/-- Three-way comparison, the embedding of Rust's `key.cmp(&self.key)`. -/
def cmpK [LinearOrder K] (a b : K) : Ordering :=
  if a < b then .lt else if b < a then .gt else .eq

/-- Embedding of `Node::splay` (with `splay_step`, `splay_type`, `rotate_left`,
`rotate_right` inlined into the zipper form).  The focus is the node being
splayed, given by its four components; the path is its ancestor chain.

* empty path — the node has no parent (`splay_type` is `None`,
  `is_root` holds): the loop returns the focus as the root;
* one entry — the parent is the root: Zig, one rotation at the parent
  (`rotate_right` if the focus is a left child, `rotate_left` otherwise);
* two or more entries, same side twice — Zig-Zig: rotate the grandparent
  first, then the parent, same direction;
* two or more entries, opposite sides — Zig-Zag: rotate the parent toward
  the focus's side, then the former grandparent the other way. -/
def splay : Tree K V → K → V → Tree K V → Path K V → Tree K V
  | l, k, v, r, [] => node l k v r
  | l, k, v, r, [⟨.left, pk, pv, po⟩] => node l k v (node r pk pv po)
  | l, k, v, r, [⟨.right, pk, pv, po⟩] => node (node po pk pv l) k v r
  | l, k, v, r, ⟨.left, pk, pv, po⟩ :: ⟨.left, gk, gv, go⟩ :: p =>
      splay l k v (node r pk pv (node po gk gv go)) p
  | l, k, v, r, ⟨.right, pk, pv, po⟩ :: ⟨.right, gk, gv, go⟩ :: p =>
      splay (node (node go gk gv po) pk pv l) k v r p
  | l, k, v, r, ⟨.left, pk, pv, po⟩ :: ⟨.right, gk, gv, go⟩ :: p =>
      splay (node go gk gv l) k v (node r pk pv po) p
  | l, k, v, r, ⟨.right, pk, pv, po⟩ :: ⟨.left, gk, gv, go⟩ :: p =>
      splay (node po pk pv l) k v (node r gk gv go) p

/-- A focused node together with its ancestor path: the result of a
traversal that must hand back a `&mut Node` deep in the tree. -/
structure Loc (K V : Type) where
  left : Tree K V
  key : K
  value : V
  right : Tree K V
  path : Path K V
  deriving DecidableEq, Repr

/-- Embedding of `Node::find_max`: walk right links until none is left. -/
def find_max : Tree K V → K → V → Tree K V → Path K V → Loc K V
  | l, k, v, leaf, p => ⟨l, k, v, leaf, p⟩
  | l, k, v, node rl rk rv rr, p => find_max rl rk rv rr (⟨.right, k, v, l⟩ :: p)

/-- Embedding of `Node::find_min`: walk left links until none is left. -/
def find_min : Tree K V → K → V → Tree K V → Path K V → Loc K V
  | leaf, k, v, r, p => ⟨leaf, k, v, r, p⟩
  | node ll lk lv lr, k, v, r, p => find_min ll lk lv lr (⟨.left, k, v, r⟩ :: p)

/-- Embedding of `Node::merge`: find the maximum of the left operand, splay it to the
root of that operand, then overwrite its right slot with the right operand
(and the right operand's parent with the new root).  The left operand is
given by its components since `self` is a real node. -/
def merge (ll : Tree K V) (lk : K) (lv : V) (lr : Tree K V) (r : Tree K V) :
    Tree K V :=
  let m := find_max ll lk lv lr []
  match splay m.left m.key m.value m.right m.path with
  | node a k v _ => node a k v r
  | leaf => r

/-- Result type `FindResult` of `SplayTree::find_ptr`: a hit hands back the found node,
which the walk has already splayed to the root, so `Found` carries the whole
post-splay tree; a miss hands back the focused terminal node and its path
(the tree is untouched); `NotFound` is the empty tree. -/
inductive FindResult (K V : Type) where
  | Found : Tree K V → FindResult K V
  | GoDown : Tree K V → Path K V → FindResult K V
  | NotFound : FindResult K V
  deriving DecidableEq, Repr

/-- The walk of `SplayTree::find_ptr`, from the focused node `node l k v r`
with ancestor path `p`: compare, descend left or right when a child exists,
splay and answer `Found` on an equal key, answer `GoDown` at the focused
node when the wanted child slot is empty.  The `leaf` equation is the
`NotFound` answer for the empty tree at the top call. -/
def find_ptr [LinearOrder K] (key : K) : Tree K V → Path K V → FindResult K V
  | leaf, _ => .NotFound
  | node l k v r, p =>
    match cmpK key k, l, r with
    | .lt, leaf, _ => .GoDown (node l k v r) p
    | .lt, node a b c d, _ => find_ptr key (node a b c d) (⟨.left, k, v, r⟩ :: p)
    | .eq, _, _ => .Found (splay l k v r p)
    | .gt, _, leaf => .GoDown (node l k v r) p
    | .gt, _, node a b c d => find_ptr key (node a b c d) (⟨.right, k, v, l⟩ :: p)

/-- Embedding of `SplayTree`: the owned root slot and the stored length counter. -/
structure SplayTree (K V : Type) where
  root : Tree K V
  length : Nat
  deriving DecidableEq, Repr

/-- Embedding of `SplayTree::new`. -/
def SplayTree.new : SplayTree K V := ⟨leaf, 0⟩

/-- Embedding of `SplayTree::len`. -/
def SplayTree.len (t : SplayTree K V) : Nat := t.length

/-- Embedding of `SplayTree::is_empty`: the root slot is `None`. -/
def SplayTree.is_empty (t : SplayTree K V) : Bool :=
  match t.root with
  | leaf => true
  | node _ _ _ _ => false

/-- The key and value of the root node, when there is one. -/
def rootPair : Tree K V → Option (K × V)
  | leaf => none
  | node _ k v _ => some (k, v)

/-- Embedding of `SplayTree::get` (and `get_mut`): run `find_ptr`; a hit returns the
found node — which the walk has made the root — and leaves the splayed
tree; a miss returns `None` and the tree untouched. -/
def SplayTree.get [LinearOrder K] (t : SplayTree K V) (key : K) :
    Option (K × V) × SplayTree K V :=
  match find_ptr key t.root [] with
  | .Found nt => (rootPair nt, ⟨nt, t.length⟩)
  | _ => (none, t)

/-- Embedding of `SplayTree::contains_key`: `self.get(&key).is_some()` — so it splays on
a hit exactly as `get` does. -/
def SplayTree.contains_key [LinearOrder K] (t : SplayTree K V) (key : K) :
    Bool × SplayTree K V :=
  let g := t.get key
  (g.1.isSome, g.2)

/-- Embedding of `SplayTree::insert`, via `entry(key).insert(value)`:
* `NotFound` (the tree is empty) — `VacantEntry::new_root`, then
  `insert_child` with no parent: the new node becomes the root,
  length is incremented;
* `GoDown` — `VacantEntry::new_elem`, then `Node::insert_child` on the
  terminal node: the new leaf-child is hung on the side of the comparison,
  splayed to the root, length is incremented (the `Equal` and occupied-slot
  arms of `insert_child` are unreachable: a `GoDown` answer means the key
  differs and the wanted slot is empty);
* `Found` — `OccupiedEntry`, overwrite the value of the found node, which
  the walk already splayed to the root; length unchanged. -/
def SplayTree.insert [LinearOrder K] (t : SplayTree K V) (key : K) (value : V) :
    SplayTree K V :=
  match find_ptr key t.root [] with
  | .NotFound => ⟨node leaf key value leaf, t.length + 1⟩
  | .GoDown (node l k v r) p =>
    match cmpK key k with
    | .lt => ⟨splay leaf key value leaf (⟨.left, k, v, r⟩ :: p), t.length + 1⟩
    | .gt => ⟨splay leaf key value leaf (⟨.right, k, v, l⟩ :: p), t.length + 1⟩
    | .eq => t
  | .GoDown leaf _ => t
  | .Found (node l k _ r) => ⟨node l k value r, t.length⟩
  | .Found leaf => t

/-- Embedding of `SplayTree::remove`: locate via `get_mut` (a hit leaves the node at the
root, fully splayed); detach both subtrees by clearing their parents; merge
/ promote / empty depending on which subtrees exist; decrement the length;
hand the detached node back with its child slots cleared — as a
free-standing singleton tree, which is exactly a node with empty parent,
left and right slots. -/
def SplayTree.remove [LinearOrder K] (t : SplayTree K V) (key : K) :
    Option (Tree K V) × SplayTree K V :=
  match find_ptr key t.root [] with
  | .Found (node l k v r) =>
    let newRoot : Tree K V :=
      match l, r with
      | node la lb lc ld, node ra rb rc rd =>
          merge la lb lc ld (node ra rb rc rd)
      | node la lb lc ld, leaf => node la lb lc ld
      | leaf, node ra rb rc rd => node ra rb rc rd
      | leaf, leaf => leaf
    (some (node leaf k v leaf), ⟨newRoot, t.length - 1⟩)
  | _ => (none, t)

/-- Embedding of `SplayTree::get_max` (and `get_max_mut`): `find_max` from the root,
splay it, return the new root.  `None` on the empty tree. -/
def SplayTree.get_max (t : SplayTree K V) : Option (K × V) × SplayTree K V :=
  match t.root with
  | leaf => (none, t)
  | node l k v r =>
    let m := find_max l k v r []
    let nt := splay m.left m.key m.value m.right m.path
    (rootPair nt, ⟨nt, t.length⟩)

/-- Embedding of `SplayTree::get_min` (and `get_min_mut`): `find_min` from the root,
splay it, return the new root.  `None` on the empty tree. -/
def SplayTree.get_min (t : SplayTree K V) : Option (K × V) × SplayTree K V :=
  match t.root with
  | leaf => (none, t)
  | node l k v r =>
    let m := find_min l k v r []
    let nt := splay m.left m.key m.value m.right m.path
    (rootPair nt, ⟨nt, t.length⟩)

/-- The tri-state `Entry` of `entry.rs`, at the boundary the tree sees:
`Occupied` holds the found (splayed-to-root) node, i.e. the new tree;
a vacant entry holds either nothing (empty tree) or the prospective
parent node and its path. -/
inductive EntryR (K V : Type) where
  | VacantRoot : EntryR K V
  | VacantAt : Tree K V → Path K V → EntryR K V
  | Occupied : Tree K V → EntryR K V
  deriving DecidableEq, Repr

/-- Embedding of `SplayTree::entry`: classify the `find_ptr` answer.  Only a hit has
touched the tree (the splay inside the walk); both vacant answers leave it
exactly as it was. -/
def SplayTree.entry [LinearOrder K] (t : SplayTree K V) (key : K) :
    EntryR K V × SplayTree K V :=
  match find_ptr key t.root [] with
  | .NotFound => (.VacantRoot, t)
  | .GoDown foc p => (.VacantAt foc p, t)
  | .Found nt => (.Occupied nt, ⟨nt, t.length⟩)

/-- In-order key list of a subtree. -/
def keys : Tree K V → List K
  | leaf => []
  | node l k _ r => keys l ++ k :: keys r

/-- The binary-search-tree order predicate, exactly as the specification
states it: at every node, all keys of the left subtree are less than the
node's key and all keys of the right subtree are greater. -/
def bst [LinearOrder K] : Tree K V → Bool
  | leaf => true
  | node l k _ r =>
      (keys l).all (fun x => decide (x < k)) &&
      (keys r).all (fun x => decide (k < x)) &&
      bst l && bst r

/-- One public mutating call. -/
inductive Op (K V : Type) where
  | ins (k : K) (v : V) : Op K V
  | del (k : K) : Op K V

/-- Run one public call. -/
def applyOp [LinearOrder K] (t : SplayTree K V) : Op K V → SplayTree K V
  | .ins k v => t.insert k v
  | .del k => (t.remove k).2

/-- Run a sequence of public calls from the empty tree. -/
def applyOps [LinearOrder K] (ops : List (Op K V)) : SplayTree K V :=
  ops.foldl applyOp SplayTree.new

/-- Keys contributed by the ancestors of a focused node to the left of it in
the in-order traversal of the whole tree. -/
def pathKeysL : Path K V → List K
  | [] => []
  | ⟨.left, _, _, _⟩ :: p => pathKeysL p
  | ⟨.right, k, _, o⟩ :: p => pathKeysL p ++ (keys o ++ [k])

/-- Keys contributed by the ancestors of a focused node to the right of it
in the in-order traversal of the whole tree. -/
def pathKeysR : Path K V → List K
  | [] => []
  | ⟨.left, k, _, o⟩ :: p => (k :: keys o) ++ pathKeysR p
  | ⟨.right, _, _, _⟩ :: p => pathKeysR p

/-- The comparisons a walk for `key` has performed along its path: it went
left below every ancestor holding a larger key and right below every
ancestor holding a smaller one. -/
def pathBounds [LinearOrder K] (key : K) : Path K V → Prop
  | [] => True
  | ⟨.left, k, _, _⟩ :: p => key < k ∧ pathBounds key p
  | ⟨.right, k, _, _⟩ :: p => k < key ∧ pathBounds key p

/-- A concrete sample tree over integer keys, built by the embedded public
calls: its root is `1` with value `11` and right child `2` with value `10`. -/
def exTree : SplayTree Int Int := (SplayTree.new.insert 2 10).insert 1 11

/-- A concrete sample tree whose root `2` has both children `1` and `3`. -/
def exTree3 : SplayTree Int Int :=
  ((SplayTree.new.insert 1 1).insert 3 3).insert 2 2

/-- The tree of the specification scenario: keys 10, 5, 12, 3, 6 inserted
in that order, every value `0`. -/
def exTree5 : SplayTree Int Int :=
  ((((SplayTree.new.insert 10 0).insert 5 0).insert 12 0).insert 3 0).insert 6 0



/-! ## Key-list bookkeeping for zippers -/

theorem keys_plug : ∀ (p : Path K V) (t : Tree K V),
    keys (plug t p) = pathKeysL p ++ keys t ++ pathKeysR p := by
  intro p
  induction p with
  | nil => intro t; simp [plug, pathKeysL, pathKeysR]
  | cons e p ih =>
    intro t
    obtain ⟨d, k, v, o⟩ := e
    cases d <;> simp [plug, pathKeysL, pathKeysR, ih, keys, List.append_assoc]

theorem keys_splay : ∀ (l : Tree K V) (k : K) (v : V) (r : Tree K V)
    (p : Path K V), keys (splay l k v r p) = keys (plug (node l k v r) p) := by
  intro l k v r p
  induction l, k, v, r, p using splay.induct <;>
    simp_all [splay, keys_plug, keys, pathKeysL, pathKeysR, List.append_assoc]

theorem splay_shape : ∀ (l : Tree K V) (k : K) (v : V) (r : Tree K V)
    (p : Path K V), ∃ a b, splay l k v r p = node a k v b := by
  intro l k v r p
  induction l, k, v, r, p using splay.induct <;> simp_all [splay]

/-! ## The BST order predicate versus sortedness of the in-order keys -/

theorem bst_iff_pairwise [LinearOrder K] : ∀ (t : Tree K V),
    bst t = true ↔ (keys t).Pairwise (· < ·) := by
  intro t
  induction t with
  | leaf => simp [bst, keys]
  | node l k v r ihl ihr =>
    simp only [bst, keys, Bool.and_eq_true, List.all_eq_true, decide_eq_true_eq,
      List.pairwise_append, List.pairwise_cons, ihl, ihr]
    constructor
    · rintro ⟨⟨⟨hl, hr⟩, pl⟩, pr⟩
      refine ⟨pl, ⟨hr, pr⟩, ?_⟩
      intro a ha b hb
      rcases List.mem_cons.mp hb with hb | hb
      · exact hb ▸ hl a ha
      · exact lt_trans (hl a ha) (hr b hb)
    · rintro ⟨pl, ⟨hr, pr⟩, hx⟩
      exact ⟨⟨⟨fun a ha => hx a ha k (List.mem_cons_self _ _), hr⟩, pl⟩, pr⟩

theorem pairwise_insert_middle [LinearOrder K] {L M : List K} {key : K}
    (h : (L ++ M).Pairwise (· < ·)) (h1 : ∀ x ∈ L, x < key)
    (h2 : ∀ x ∈ M, key < x) : (L ++ key :: M).Pairwise (· < ·) := by
  rw [List.pairwise_append] at h ⊢
  obtain ⟨pL, pM, hLM⟩ := h
  refine ⟨pL, ?_, ?_⟩
  · exact List.pairwise_cons.mpr ⟨h2, pM⟩
  · intro a ha b hb
    rcases List.mem_cons.mp hb with hb | hb
    · exact hb ▸ h1 a ha
    · exact hLM a ha b hb

/-! ## Facts about the three-way comparison -/

theorem cmpK_lt [LinearOrder K] {a b : K} (h : a < b) : cmpK a b = .lt := by
  simp [cmpK, h]

theorem cmpK_gt [LinearOrder K] {a b : K} (h : b < a) : cmpK a b = .gt := by
  simp [cmpK, h, not_lt_of_gt h]

theorem cmpK_self [LinearOrder K] (a : K) : cmpK a a = .eq := by
  simp [cmpK]

theorem cmpK_eq_iff [LinearOrder K] {a b : K} : cmpK a b = .eq ↔ a = b := by
  rcases lt_trichotomy a b with h | h | h
  · simp [cmpK_lt h, ne_of_lt h]
  · simp [h, cmpK_self]
  · simp [cmpK_gt h, (ne_of_lt h).symm]

/-! ## Bounds recorded by a descending walk -/

theorem pathKeys_sep [LinearOrder K] (key : K) : ∀ (q : Path K V) (X : List K),
    (pathKeysL q ++ X ++ pathKeysR q).Pairwise (· < ·) → pathBounds key q →
    (∀ x ∈ pathKeysL q, x < key) ∧ (∀ x ∈ pathKeysR q, key < x) := by
  intro q
  induction q with
  | nil => intro X _ _; simp [pathKeysL, pathKeysR]
  | cons e p ih =>
    intro X hs hb
    obtain ⟨d, k, v, o⟩ := e
    cases d with
    | left =>
      simp only [pathKeysL, pathKeysR] at hs ⊢
      obtain ⟨hk, hb'⟩ := hb
      have hko : ∀ x ∈ keys o, k < x := by
        have h1 := (List.pairwise_append.mp hs).2.1
        have h2 := (List.pairwise_append.mp h1).1
        exact (List.pairwise_cons.mp h2).1
      have hs' : (pathKeysL p ++ (X ++ k :: keys o) ++ pathKeysR p).Pairwise
          (· < ·) := by
        simpa [List.append_assoc] using hs
      obtain ⟨hL, hR⟩ := ih (X ++ k :: keys o) hs' hb'
      refine ⟨hL, ?_⟩
      intro x hx
      rcases List.mem_append.mp hx with hx | hx
      · rcases List.mem_cons.mp hx with hx | hx
        · exact hx ▸ hk
        · exact lt_trans hk (hko x hx)
      · exact hR x hx
    | right =>
      simp only [pathKeysL, pathKeysR] at hs ⊢
      obtain ⟨hk, hb'⟩ := hb
      have hok : ∀ x ∈ keys o, x < k := by
        have h1 := (List.pairwise_append.mp hs).1
        have h2 := (List.pairwise_append.mp h1).1
        have h3 := (List.pairwise_append.mp h2).2.1
        intro x hx
        exact (List.pairwise_append.mp h3).2.2 x hx k (by simp)
      have hs' : (pathKeysL p ++ ((keys o ++ [k]) ++ X) ++ pathKeysR p).Pairwise
          (· < ·) := by
        simpa [List.append_assoc] using hs
      obtain ⟨hL, hR⟩ := ih ((keys o ++ [k]) ++ X) hs' hb'
      refine ⟨?_, hR⟩
      intro x hx
      rcases List.mem_append.mp hx with hx | hx
      · exact hL x hx
      · rcases List.mem_append.mp hx with hx | hx
        · exact lt_trans (hok x hx) hk
        · exact (List.mem_singleton.mp hx) ▸ hk

/-! ## Behaviour of the lookup walk -/

theorem find_ptr_eq [LinearOrder K] {key k : K} (h : key = k) (l : Tree K V)
    (v : V) (r : Tree K V) (p : Path K V) :
    find_ptr key (node l k v r) p = .Found (splay l k v r p) := by
  subst h
  cases l <;> cases r <;> simp only [find_ptr, cmpK_self]

theorem find_ptr_lt_leaf [LinearOrder K] {key k : K} (h : key < k) (v : V)
    (r : Tree K V) (p : Path K V) :
    find_ptr key (node leaf k v r) p = .GoDown (node leaf k v r) p := by
  simp only [find_ptr, cmpK_lt h]

theorem find_ptr_lt_node [LinearOrder K] {key k : K} (h : key < k)
    (a : Tree K V) (b : K) (c : V) (d : Tree K V) (v : V) (r : Tree K V)
    (p : Path K V) :
    find_ptr key (node (node a b c d) k v r) p =
      find_ptr key (node a b c d) (⟨.left, k, v, r⟩ :: p) := by
  simp only [find_ptr, cmpK_lt h]

theorem find_ptr_gt_leaf [LinearOrder K] {key k : K} (h : k < key)
    (l : Tree K V) (v : V) (p : Path K V) :
    find_ptr key (node l k v leaf) p = .GoDown (node l k v leaf) p := by
  cases l <;> simp only [find_ptr, cmpK_gt h]

theorem find_ptr_gt_node [LinearOrder K] {key k : K} (h : k < key)
    (l : Tree K V) (v : V) (a : Tree K V) (b : K) (c : V) (d : Tree K V)
    (p : Path K V) :
    find_ptr key (node l k v (node a b c d)) p =
      find_ptr key (node a b c d) (⟨.right, k, v, l⟩ :: p) := by
  cases l <;> simp only [find_ptr, cmpK_gt h]

theorem find_notFound [LinearOrder K] (key : K) : ∀ (t : Tree K V)
    (p : Path K V), t ≠ leaf → find_ptr key t p ≠ .NotFound := by
  intro t
  induction t with
  | leaf => intro p h; exact absurd rfl h
  | node l k v r ihl ihr =>
    intro p _
    rcases lt_trichotomy key k with h | h | h
    · cases l with
      | leaf => simp [find_ptr_lt_leaf h]
      | node a b c d => rw [find_ptr_lt_node h]; exact ihl _ (by simp)
    · simp [find_ptr_eq h]
    · cases r with
      | leaf => simp [find_ptr_gt_leaf h]
      | node a b c d => rw [find_ptr_gt_node h]; exact ihr _ (by simp)

theorem find_found [LinearOrder K] (key : K) : ∀ (t : Tree K V)
    (p : Path K V) (nt : Tree K V), find_ptr key t p = .Found nt →
    (∃ a v b, nt = node a key v b) ∧ keys nt = keys (plug t p) ∧
      key ∈ keys t := by
  intro t
  induction t with
  | leaf => intro p nt h; simp [find_ptr] at h
  | node l k v r ihl ihr =>
    intro p nt h
    rcases lt_trichotomy key k with hc | hc | hc
    · cases l with
      | leaf => rw [find_ptr_lt_leaf hc] at h; cases h
      | node a b c d =>
        rw [find_ptr_lt_node hc] at h
        obtain ⟨hsh, hk, hm⟩ := ihl _ _ h
        refine ⟨hsh, by simpa [plug] using hk, ?_⟩
        simp only [keys, List.mem_append, List.mem_cons] at hm ⊢
        tauto
    · rw [find_ptr_eq hc] at h
      cases h
      subst hc
      refine ⟨?_, by rw [keys_splay], by simp [keys]⟩
      obtain ⟨a, b, hab⟩ := splay_shape l key v r p
      exact ⟨a, v, b, hab⟩
    · cases r with
      | leaf => rw [find_ptr_gt_leaf hc] at h; cases h
      | node a b c d =>
        rw [find_ptr_gt_node hc] at h
        obtain ⟨hsh, hk, hm⟩ := ihr _ _ h
        refine ⟨hsh, by simpa [plug] using hk, ?_⟩
        simp only [keys, List.mem_append, List.mem_cons] at hm ⊢
        tauto

theorem find_goDown [LinearOrder K] (key : K) : ∀ (t : Tree K V)
    (p : Path K V) (foc : Tree K V) (q : Path K V),
    find_ptr key t p = .GoDown foc q → pathBounds key p →
    plug foc q = plug t p ∧ pathBounds key q ∧
      ∃ l k v r, foc = node l k v r ∧
        ((key < k ∧ l = leaf) ∨ (k < key ∧ r = leaf)) := by
  intro t
  induction t with
  | leaf => intro p foc q h _; simp [find_ptr] at h
  | node l k v r ihl ihr =>
    intro p foc q h hb
    rcases lt_trichotomy key k with hc | hc | hc
    · cases l with
      | leaf =>
        rw [find_ptr_lt_leaf hc] at h
        cases h
        exact ⟨rfl, hb, leaf, k, v, r, rfl, Or.inl ⟨hc, rfl⟩⟩
      | node a b c d =>
        rw [find_ptr_lt_node hc] at h
        obtain ⟨hp, hbq, hsh⟩ := ihl _ _ _ h ⟨hc, hb⟩
        exact ⟨by simpa [plug] using hp, hbq, hsh⟩
    · rw [find_ptr_eq hc] at h
      cases h
    · cases r with
      | leaf =>
        rw [find_ptr_gt_leaf hc] at h
        cases h
        exact ⟨rfl, hb, l, k, v, leaf, rfl, Or.inr ⟨hc, rfl⟩⟩
      | node a b c d =>
        rw [find_ptr_gt_node hc] at h
        obtain ⟨hp, hbq, hsh⟩ := ihr _ _ _ h ⟨hc, hb⟩
        exact ⟨by simpa [plug] using hp, hbq, hsh⟩

theorem find_hit [LinearOrder K] (key : K) : ∀ (t : Tree K V),
    bst t = true → key ∈ keys t → ∀ p, ∃ nt,
    find_ptr key t p = .Found nt := by
  intro t
  induction t with
  | leaf => intro _ hm; simp [keys] at hm
  | node l k v r ihl ihr =>
    intro hb hm p
    rw [bst_iff_pairwise] at hb
    simp only [keys] at hb hm
    rw [List.pairwise_append] at hb
    rcases lt_trichotomy key k with hc | hc | hc
    · have hml : key ∈ keys l := by
        rcases List.mem_append.mp hm with hx | hx
        · exact hx
        · rcases List.mem_cons.mp hx with hx | hx
          · exact absurd (hx ▸ hc) (lt_irrefl k)
          · exact absurd (lt_trans hc ((List.pairwise_cons.mp hb.2.1).1 _ hx))
              (lt_irrefl key)
      cases l with
      | leaf => simp [keys] at hml
      | node a b c d =>
        obtain ⟨nt, hnt⟩ := ihl (by
            rw [bst_iff_pairwise]; exact hb.1) hml (⟨.left, k, v, r⟩ :: p)
        exact ⟨nt, by rw [find_ptr_lt_node hc]; exact hnt⟩
    · exact ⟨splay l k v r p, find_ptr_eq hc l v r p⟩
    · have hmr : key ∈ keys r := by
        rcases List.mem_append.mp hm with hx | hx
        · exact absurd (lt_trans hc (hb.2.2 _ hx _ (List.mem_cons_self _ _)))
            (lt_irrefl k)
        · rcases List.mem_cons.mp hx with hx | hx
          · exact absurd (hx ▸ hc) (lt_irrefl k)
          · exact hx
      cases r with
      | leaf => simp [keys] at hmr
      | node a b c d =>
        obtain ⟨nt, hnt⟩ := ihr (by
            rw [bst_iff_pairwise]
            exact (List.pairwise_cons.mp hb.2.1).2) hmr (⟨.right, k, v, l⟩ :: p)
        exact ⟨nt, by rw [find_ptr_gt_node hc]; exact hnt⟩

/-! ## The extreme-node walks and the merge step -/

theorem find_max_plug : ∀ (l : Tree K V) (k : K) (v : V) (r : Tree K V)
    (p : Path K V), plug (node (find_max l k v r p).left (find_max l k v r p).key
      (find_max l k v r p).value (find_max l k v r p).right)
      (find_max l k v r p).path = plug (node l k v r) p := by
  intro l k v r p
  induction l, k, v, r, p using find_max.induct with
  | case1 l k v p => simp [find_max]
  | case2 l k v rl rk rv rr p ih => simpa [find_max, plug] using ih

theorem find_max_right : ∀ (l : Tree K V) (k : K) (v : V) (r : Tree K V)
    (p : Path K V), (find_max l k v r p).right = leaf := by
  intro l k v r p
  induction l, k, v, r, p using find_max.induct <;> simp_all [find_max]

theorem find_max_dirs : ∀ (l : Tree K V) (k : K) (v : V) (r : Tree K V)
    (p : Path K V), (∀ e ∈ p, e.d = .right) →
    ∀ e ∈ (find_max l k v r p).path, e.d = .right := by
  intro l k v r p
  induction l, k, v, r, p using find_max.induct with
  | case1 l k v p => intro h; simpa [find_max] using h
  | case2 l k v rl rk rv rr p ih =>
    intro h
    simp only [find_max]
    apply ih
    intro e he
    rcases List.mem_cons.mp he with he | he
    · simp [he]
    · exact h e he

theorem find_min_plug : ∀ (l : Tree K V) (k : K) (v : V) (r : Tree K V)
    (p : Path K V), plug (node (find_min l k v r p).left (find_min l k v r p).key
      (find_min l k v r p).value (find_min l k v r p).right)
      (find_min l k v r p).path = plug (node l k v r) p := by
  intro l k v r p
  induction l, k, v, r, p using find_min.induct with
  | case1 k v r p => simp [find_min]
  | case2 ll lk lv lr k v r p ih => simpa [find_min, plug] using ih

theorem find_min_left : ∀ (l : Tree K V) (k : K) (v : V) (r : Tree K V)
    (p : Path K V), (find_min l k v r p).left = leaf := by
  intro l k v r p
  induction l, k, v, r, p using find_min.induct <;> simp_all [find_min]

theorem find_min_dirs : ∀ (l : Tree K V) (k : K) (v : V) (r : Tree K V)
    (p : Path K V), (∀ e ∈ p, e.d = .left) →
    ∀ e ∈ (find_min l k v r p).path, e.d = .left := by
  intro l k v r p
  induction l, k, v, r, p using find_min.induct with
  | case1 k v r p => intro h; simpa [find_min] using h
  | case2 ll lk lv lr k v r p ih =>
    intro h
    simp only [find_min]
    apply ih
    intro e he
    rcases List.mem_cons.mp he with he | he
    · simp [he]
    · exact h e he

theorem splay_allRight : ∀ (l : Tree K V) (k : K) (v : V) (r : Tree K V)
    (p : Path K V), (∀ e ∈ p, e.d = .right) →
    ∃ a, splay l k v r p = node a k v r := by
  intro l k v r p
  induction l, k, v, r, p using splay.induct <;> intro h <;>
    simp_all [splay]

theorem splay_allLeft : ∀ (l : Tree K V) (k : K) (v : V) (r : Tree K V)
    (p : Path K V), (∀ e ∈ p, e.d = .left) →
    ∃ b, splay l k v r p = node l k v b := by
  intro l k v r p
  induction l, k, v, r, p using splay.induct <;> intro h <;>
    simp_all [splay]

theorem merge_spec (ll : Tree K V) (lk : K) (lv : V) (lr : Tree K V)
    (r : Tree K V) : ∃ a, merge ll lk lv lr r =
      node a (find_max ll lk lv lr []).key (find_max ll lk lv lr []).value r ∧
      keys (node ll lk lv lr) = keys a ++ [(find_max ll lk lv lr []).key] := by
  have hd : ∀ e ∈ (find_max ll lk lv lr []).path, e.d = .right :=
    find_max_dirs ll lk lv lr [] (by simp)
  have hr := find_max_right ll lk lv lr []
  obtain ⟨a, ha⟩ := splay_allRight (find_max ll lk lv lr []).left
    (find_max ll lk lv lr []).key (find_max ll lk lv lr []).value
    (find_max ll lk lv lr []).right (find_max ll lk lv lr []).path hd
  refine ⟨a, ?_, ?_⟩
  · rw [merge, ha, hr]
  · have hkeys : keys (splay (find_max ll lk lv lr []).left
        (find_max ll lk lv lr []).key (find_max ll lk lv lr []).value
        (find_max ll lk lv lr []).right (find_max ll lk lv lr []).path) =
        keys (node ll lk lv lr) := by
      rw [keys_splay, find_max_plug]
      simp [plug]
    rw [ha, hr] at hkeys
    simpa [keys] using hkeys.symm

theorem merge_keys (ll : Tree K V) (lk : K) (lv : V) (lr : Tree K V)
    (r : Tree K V) : keys (merge ll lk lv lr r) =
      keys (node ll lk lv lr) ++ keys r := by
  obtain ⟨a, hm, hk⟩ := merge_spec ll lk lv lr r
  rw [hm, hk]
  simp [keys]

/-! ## The binary-search-tree invariant is preserved -/

theorem insert_root [LinearOrder K] (t : SplayTree K V) (key : K) (value : V) :
    ∃ a b, (t.insert key value).root = node a key value b := by
  cases hf : find_ptr key t.root [] with
  | NotFound => exact ⟨leaf, leaf, by simp [SplayTree.insert, hf]⟩
  | Found nt =>
    obtain ⟨a, v, b, hnt⟩ := (find_found key t.root [] nt hf).1
    subst hnt
    exact ⟨a, b, by simp [SplayTree.insert, hf]⟩
  | GoDown foc q =>
    obtain ⟨hp, hbq, l, k, v, r, hfoc, hside⟩ :=
      find_goDown key t.root [] foc q hf trivial
    subst hfoc
    rcases hside with ⟨hlt, hl⟩ | ⟨hgt, hr⟩
    · subst hl
      obtain ⟨a, b, hs⟩ := splay_shape leaf key value leaf
        (⟨.left, k, v, r⟩ :: q)
      exact ⟨a, b, by simp [SplayTree.insert, hf, cmpK_lt hlt, hs]⟩
    · subst hr
      obtain ⟨a, b, hs⟩ := splay_shape leaf key value leaf
        (⟨.right, k, v, l⟩ :: q)
      exact ⟨a, b, by simp [SplayTree.insert, hf, cmpK_gt hgt, hs]⟩

theorem bst_insert [LinearOrder K] (t : SplayTree K V) (key : K) (value : V)
    (hb : bst t.root = true) : bst (t.insert key value).root = true := by
  cases hf : find_ptr key t.root [] with
  | NotFound => simp [SplayTree.insert, hf, bst, keys]
  | Found nt =>
    obtain ⟨⟨a, v, b, hnt⟩, hk, _⟩ := find_found key t.root [] nt hf
    subst hnt
    simp only [SplayTree.insert, hf]
    rw [bst_iff_pairwise]
    have hkeys : keys (node a key value b) = keys t.root := by
      simpa [keys, plug] using hk
    rw [hkeys]
    exact (bst_iff_pairwise t.root).mp hb
  | GoDown foc q =>
    obtain ⟨hp, hbq, l, k, v, r, hfoc, hside⟩ :=
      find_goDown key t.root [] foc q hf trivial
    subst hfoc
    have hroot : plug (node l k v r) q = t.root := by simpa [plug] using hp
    have hbp : (keys (plug (node l k v r) q)).Pairwise (· < ·) := by
      rw [hroot]; exact (bst_iff_pairwise t.root).mp hb
    rw [keys_plug] at hbp
    rcases hside with ⟨hlt, hl⟩ | ⟨hgt, hr⟩
    · subst hl
      simp only [SplayTree.insert, hf, cmpK_lt hlt]
      rw [bst_iff_pairwise, keys_splay]
      show (keys (plug (node (node leaf key value leaf) k v r) q)).Pairwise _
      rw [keys_plug]
      have hsep := pathKeys_sep key q (k :: keys r) (by
        simpa [keys, List.append_assoc] using hbp) hbq
      have hb' : ((pathKeysL q) ++ (k :: (keys r ++ pathKeysR q))).Pairwise
          (· < ·) := by
        simpa [keys, List.append_assoc] using hbp
      have hkr : ∀ x ∈ keys r ++ pathKeysR q, k < x :=
        (List.pairwise_cons.mp (List.pairwise_append.mp hb').2.1).1
      have hnew := pairwise_insert_middle hb' hsep.1 (by
        intro x hx
        rcases List.mem_cons.mp hx with hx | hx
        · exact hx ▸ hlt
        · exact lt_trans hlt (hkr x hx))
      simpa [keys, List.append_assoc] using hnew
    · subst hr
      simp only [SplayTree.insert, hf, cmpK_gt hgt]
      rw [bst_iff_pairwise, keys_splay]
      simp only [plug]
      rw [keys_plug]
      have hsep := pathKeys_sep key q (keys l ++ [k]) (by
        simpa [keys, List.append_assoc] using hbp) hbq
      have hb' : (((pathKeysL q ++ keys l) ++ [k]) ++ pathKeysR q).Pairwise
          (· < ·) := by
        simpa [keys, List.append_assoc] using hbp
      have hlk : ∀ x ∈ keys l, x < k := by
        intro x hx
        have h1 := (List.pairwise_append.mp hb').1
        exact (List.pairwise_append.mp h1).2.2 x
          (List.mem_append_right _ hx) k (by simp)
      have hnew := pairwise_insert_middle hb' (by
        intro x hx
        rcases List.mem_append.mp hx with hx | hx
        · rcases List.mem_append.mp hx with hx | hx
          · exact hsep.1 x hx
          · exact lt_trans (hlk x hx) hgt
        · exact (List.mem_singleton.mp hx) ▸ hgt) hsep.2
      simpa [keys, List.append_assoc] using hnew

theorem bst_remove [LinearOrder K] (t : SplayTree K V) (key : K)
    (hb : bst t.root = true) : bst ((t.remove key).2).root = true := by
  cases hf : find_ptr key t.root [] with
  | NotFound => simpa [SplayTree.remove, hf] using hb
  | GoDown foc q => simpa [SplayTree.remove, hf] using hb
  | Found nt =>
    obtain ⟨⟨a, v, b, hnt⟩, hk, _⟩ := find_found key t.root [] nt hf
    subst hnt
    have hpw : (keys a ++ key :: keys b).Pairwise (· < ·) := by
      have h0 := (bst_iff_pairwise t.root).mp hb
      have hkeys : keys a ++ key :: keys b = keys t.root := by
        simpa [keys, plug] using hk
      rw [hkeys]
      exact h0
    cases a with
    | leaf =>
      cases b with
      | leaf => simp [SplayTree.remove, hf, bst]
      | node ra rb rc rd =>
        simp only [SplayTree.remove, hf]
        rw [bst_iff_pairwise]
        exact (List.pairwise_cons.mp
          (List.pairwise_append.mp hpw).2.1).2
    | node la lb lc ld =>
      cases b with
      | leaf =>
        simp only [SplayTree.remove, hf]
        rw [bst_iff_pairwise]
        exact (List.pairwise_append.mp hpw).1
      | node ra rb rc rd =>
        simp only [SplayTree.remove, hf]
        rw [bst_iff_pairwise, merge_keys]
        refine List.Pairwise.sublist ?_ hpw
        exact List.Sublist.append_left (List.sublist_cons_self _ _) _

/-- One `insert` or `remove`, starting from a tree whose in-order keys are
strictly sorted, again yields strictly sorted in-order keys. -/
theorem bst_applyOp [LinearOrder K] (t : SplayTree K V) (op : Op K V)
    (hb : bst t.root = true) : bst (applyOp t op).root = true := by
  cases op with
  | ins k v => exact bst_insert t k v hb
  | del k => exact bst_remove t k hb

/-! ## Behaviour of `get` and `remove` on missing keys -/

theorem splay_nil (l : Tree K V) (k : K) (v : V) (r : Tree K V) :
    splay l k v r [] = node l k v r := rfl

theorem get_of_found [LinearOrder K] (u : SplayTree K V) (key : K)
    (nt : Tree K V) (hf : find_ptr key u.root [] = .Found nt) :
    u.get key = (rootPair nt, ⟨nt, u.length⟩) := by
  simp [SplayTree.get, hf]

theorem insert_of_found [LinearOrder K] (u : SplayTree K V) (key k' : K)
    (v2 v' : V) (a b : Tree K V)
    (hf : find_ptr key u.root [] = .Found (node a k' v' b)) :
    u.insert key v2 = ⟨node a k' v2 b, u.length⟩ := by
  simp [SplayTree.insert, hf]

theorem get_none_of_not_mem [LinearOrder K] (t : SplayTree K V) (key : K)
    (hm : key ∉ keys t.root) : (t.get key).1 = none := by
  cases hg : find_ptr key t.root [] with
  | Found nt => exact absurd (find_found key t.root [] nt hg).2.2 hm
  | GoDown foc q => simp [SplayTree.get, hg]
  | NotFound => simp [SplayTree.get, hg]

theorem remove_key_not_mem [LinearOrder K] (t : SplayTree K V) (key : K)
    (hb : bst t.root = true) : key ∉ keys ((t.remove key).2).root := by
  cases hf : find_ptr key t.root [] with
  | NotFound =>
    cases htr : t.root with
    | leaf => simp [SplayTree.remove, htr, find_ptr, keys]
    | node l k v r =>
      exact absurd hf (by rw [htr]; exact find_notFound key _ [] (by simp))
  | GoDown foc q =>
    intro hm
    simp only [SplayTree.remove, hf] at hm
    obtain ⟨nt, hnt⟩ := find_hit key t.root hb hm []
    rw [hf] at hnt
    cases hnt
  | Found nt =>
    obtain ⟨⟨a, v, b, hnt⟩, hk, _⟩ := find_found key t.root [] nt hf
    subst hnt
    have hpw : (keys a ++ key :: keys b).Pairwise (· < ·) := by
      have h0 := (bst_iff_pairwise t.root).mp hb
      have hkeys : keys a ++ key :: keys b = keys t.root := hk
      rw [hkeys]
      exact h0
    have hna : key ∉ keys a := by
      intro hx
      exact absurd ((List.pairwise_append.mp hpw).2.2 key hx key
        (List.mem_cons_self _ _)) (lt_irrefl key)
    have hnb : key ∉ keys b := by
      intro hx
      exact absurd ((List.pairwise_cons.mp
        (List.pairwise_append.mp hpw).2.1).1 key hx) (lt_irrefl key)
    cases a with
    | leaf =>
      cases b with
      | leaf => simp [SplayTree.remove, hf, keys]
      | node ra rb rc rd => simpa [SplayTree.remove, hf] using hnb
    | node la lb lc ld =>
      cases b with
      | leaf => simpa [SplayTree.remove, hf] using hna
      | node ra rb rc rd =>
        simp only [SplayTree.remove, hf]
        rw [merge_keys]
        intro hm
        rcases List.mem_append.mp hm with hm | hm
        · exact hna hm
        · exact hnb hm

/-! ## The theorems for the specified claims -/

/-- C1: for every tree reachable from the empty tree by any sequence of
`insert` and `remove` calls, every node satisfies binary-search-tree order —
all keys in its left subtree are less than its key and all keys in its
right subtree are greater (the predicate `bst`). -/
theorem C1_bst_reachable [LinearOrder K] (ops : List (Op K V)) :
    bst (applyOps ops).root = true := by
  have h : ∀ (ops : List (Op K V)) (t : SplayTree K V), bst t.root = true →
      bst (ops.foldl applyOp t).root = true := by
    intro ops
    induction ops with
    | nil => intro t ht; exact ht
    | cons op ops ih => intro t ht; exact ih _ (bst_applyOp t op ht)
  exact h ops SplayTree.new rfl

/-- C2: on a binary-search tree containing `key`, `get key` leaves a tree
whose root holds exactly `key`, and `insert key value` always leaves a root
holding `key` (with the new value). -/
theorem C2_splay_to_root [LinearOrder K] (t : SplayTree K V) (key : K)
    (value : V) (hb : bst t.root = true) (hmem : key ∈ keys t.root) :
    (∃ a v b, ((t.get key).2).root = node a key v b) ∧
    (∃ a b, (t.insert key value).root = node a key value b) := by
  constructor
  · obtain ⟨nt, hf⟩ := find_hit key t.root hb hmem []
    obtain ⟨⟨a, v, b, hnt⟩, _, _⟩ := find_found key t.root [] nt hf
    subst hnt
    exact ⟨a, v, b, by rw [get_of_found t key _ hf]⟩
  · exact insert_root t key value

/-- C2 witness: the hypotheses hold on the sample tree at key 1. -/
theorem C2_splay_to_root_witness :
    bst exTree.root = true ∧ (1 : Int) ∈ keys exTree.root ∧
    ((∃ a v b, ((exTree.get 1).2).root = node a 1 v b) ∧
     (∃ a b, (exTree.insert 1 7).root = node a 1 7 b)) :=
  ⟨by decide, by decide, C2_splay_to_root exTree 1 7 (by decide) (by decide)⟩

/-- C3: `insert key value` followed by `get key` yields the node with key
`key` and value `value`; on a binary-search tree, `remove key` followed by
`get key` yields `none`. -/
theorem C3_round_trip [LinearOrder K] (t : SplayTree K V) (key : K)
    (value : V) (hb : bst t.root = true) :
    ((t.insert key value).get key).1 = some (key, value) ∧
    (((t.remove key).2).get key).1 = none := by
  constructor
  · obtain ⟨a, b, hroot⟩ := insert_root t key value
    have hf : find_ptr key (t.insert key value).root [] =
        .Found (node a key value b) := by
      rw [hroot, find_ptr_eq rfl, splay_nil]
    rw [get_of_found _ key _ hf]
    simp [rootPair]
  · exact get_none_of_not_mem _ key (remove_key_not_mem t key hb)

/-- C3 witness: the round trip at key 1, value 5, on the sample tree. -/
theorem C3_round_trip_witness :
    bst exTree.root = true ∧
    (((exTree.insert 1 5).get 1).1 = some (1, 5) ∧
     (((exTree.remove 1).2).get 1).1 = none) :=
  ⟨by decide, C3_round_trip exTree 1 5 (by decide)⟩

/-- C4: a second `insert` of the same key leaves the length unchanged and a
following `get` returns the second value. -/
theorem C4_overwrite [LinearOrder K] (t : SplayTree K V) (key : K)
    (v1 v2 : V) :
    ((t.insert key v1).insert key v2).len = (t.insert key v1).len ∧
    (((t.insert key v1).insert key v2).get key).1 = some (key, v2) := by
  obtain ⟨a, b, hroot⟩ := insert_root t key v1
  have hf : find_ptr key (t.insert key v1).root [] =
      .Found (node a key v1 b) := by
    rw [hroot, find_ptr_eq rfl, splay_nil]
  have hins := insert_of_found (t.insert key v1) key key v2 v1 a b hf
  constructor
  · rw [hins]; rfl
  · have hf2 : find_ptr key ((t.insert key v1).insert key v2).root [] =
        .Found (node a key v2 b) := by
      rw [hins, find_ptr_eq rfl, splay_nil]
    rw [get_of_found _ key _ hf2]
    simp [rootPair]

/-- C5: removing a key whose located (splayed-to-root) node has both
subtrees returns the detached node — key `k`, no parent, both child slots
empty — makes the maximum of the detached left subtree the new root with
the detached right subtree as its right child, and decrements the length
by one. -/
theorem C5_remove_two_children [LinearOrder K] (t : SplayTree K V) (key : K)
    (la : Tree K V) (lb : K) (lc : V) (ld ra : Tree K V) (rb : K) (rc : V)
    (rd : Tree K V) (k : K) (v : V)
    (hb : bst t.root = true) (hlen : 0 < t.length)
    (hf : find_ptr key t.root [] =
      .Found (node (node la lb lc ld) k v (node ra rb rc rd))) :
    (t.remove key).1 = some (node leaf k v leaf) ∧
    k = key ∧
    (∃ a mv, ((t.remove key).2).root =
        node a (find_max la lb lc ld []).key mv (node ra rb rc rd) ∧
      (find_max la lb lc ld []).key ∈ keys (node la lb lc ld) ∧
      ∀ x ∈ keys (node la lb lc ld), x ≤ (find_max la lb lc ld []).key) ∧
    ((t.remove key).2).len + 1 = t.len := by
  obtain ⟨⟨a', v', b', hnt⟩, hk, _⟩ := find_found key t.root [] _ hf
  obtain ⟨h1, h2, h3, h4⟩ := Tree.node.inj hnt
  obtain ⟨am, hm, hmk⟩ := merge_spec la lb lc ld (node ra rb rc rd)
  have hpw : (keys (node la lb lc ld) ++ k :: keys (node ra rb rc rd)).Pairwise
      (· < ·) := by
    have h0 := (bst_iff_pairwise t.root).mp hb
    have hkeys : keys (node la lb lc ld) ++ k :: keys (node ra rb rc rd) =
        keys t.root := hk
    rw [hkeys]
    exact h0
  have hmax : ∀ x ∈ keys (node la lb lc ld),
      x ≤ (find_max la lb lc ld []).key := by
    intro x hx
    rw [hmk] at hx
    rcases List.mem_append.mp hx with hx | hx
    · have hpl : (keys (node la lb lc ld)).Pairwise (· < ·) :=
        (List.pairwise_append.mp hpw).1
      rw [hmk] at hpl
      exact le_of_lt ((List.pairwise_append.mp hpl).2.2 x hx _ (by simp))
    · exact le_of_eq (List.mem_singleton.mp hx)
  refine ⟨by simp [SplayTree.remove, hf], h2, ⟨am,
    (find_max la lb lc ld []).value, ?_, ?_, hmax⟩, ?_⟩
  · simp only [SplayTree.remove, hf]
    exact hm
  · rw [hmk]; simp
  · simp only [SplayTree.remove, hf, SplayTree.len]
    omega

/-- C5 witness: the sample tree with root 2 and children 1 and 3. -/
theorem C5_remove_two_children_witness :
    bst exTree3.root = true ∧ 0 < exTree3.length ∧
    find_ptr 2 exTree3.root [] =
      .Found (node (node leaf 1 1 leaf) 2 2 (node leaf 3 3 leaf)) ∧
    ((exTree3.remove 2).1 = some (node leaf 2 2 leaf) ∧
     (2 : Int) = 2 ∧
     (∃ a mv, ((exTree3.remove 2).2).root =
         node a (find_max leaf 1 1 leaf []).key mv (node leaf 3 3 leaf) ∧
       (find_max leaf 1 1 leaf []).key ∈ keys (node leaf (1 : Int) (1 : Int) leaf) ∧
       ∀ x ∈ keys (node leaf (1 : Int) (1 : Int) leaf),
         x ≤ (find_max leaf 1 1 leaf []).key) ∧
     ((exTree3.remove 2).2).len + 1 = exTree3.len) :=
  ⟨by decide, by decide, by decide,
    C5_remove_two_children exTree3 2 leaf 1 1 leaf leaf 3 3 leaf 2 2
      (by decide) (by decide) (by decide)⟩

/-- C6 counterexample: inserting keys 10, 5, 12, 3, 6 in that order (each
insertion splays the new node to the root) and then reading key 5 does not
produce the tree claimed — root 5 with left child 3 and right child 10,
10's left child 6 and right child 12. -/
theorem C6_scenario_counterexample :
    (exTree5.get 5).2.root ≠
      node (node leaf 3 0 leaf) 5 0
        (node (node leaf 6 0 leaf) 10 0 (node leaf 12 0 leaf)) := by
  decide

/-- C6 (amended): after inserting keys 10, 5, 12, 3, 6 in that order and
accessing key 5, the root is 5 with left child 3 and right child 6, 6's
right child 12 and 12's left child 10; the claimed shape arises instead
from splaying the node 5 in the hand-built tree with root 10, children 5
and 12, and 5's children 3 and 6 (a Zig step, as in the repository's own
node-level test). -/
theorem C6_scenario_amended :
    (exTree5.get 5).2.root =
      node (node leaf 3 0 leaf) 5 0
        (node leaf 6 0 (node (node leaf 10 0 leaf) 12 0 leaf)) ∧
    splay (node leaf 3 0 leaf) (5 : Int) (0 : Int) (node leaf 6 0 leaf)
        [⟨.left, 10, 0, node leaf 12 0 leaf⟩] =
      node (node leaf 3 0 leaf) 5 0
        (node (node leaf 6 0 leaf) 10 0 (node leaf 12 0 leaf)) := by
  decide

/-- C7: on a non-empty tree that does not contain `key`, `entry key` hands
back the terminal node of the walk — the prospective parent, whose child
slot on the side of the comparison is empty — together with its path, and
the tree itself is handed back completely unchanged: no splay happens on a
miss. -/
theorem C7_miss_frame [LinearOrder K] (t : SplayTree K V) (key : K)
    (hne : t.root ≠ leaf) (hmem : key ∉ keys t.root) :
    ∃ l k v r q, t.entry key = (.VacantAt (node l k v r) q, t) ∧
      plug (node l k v r) q = t.root ∧
      ((key < k ∧ l = leaf) ∨ (k < key ∧ r = leaf)) := by
  cases hf : find_ptr key t.root [] with
  | NotFound => exact absurd hf (find_notFound key t.root [] hne)
  | Found nt => exact absurd (find_found key t.root [] nt hf).2.2 hmem
  | GoDown foc q =>
    obtain ⟨hp, _, l, k, v, r, hfoc, hside⟩ :=
      find_goDown key t.root [] foc q hf trivial
    subst hfoc
    exact ⟨l, k, v, r, q, by simp [SplayTree.entry, hf], hp, hside⟩

/-- C7 witness: key 5 is absent from the sample tree. -/
theorem C7_miss_frame_witness :
    exTree.root ≠ leaf ∧ (5 : Int) ∉ keys exTree.root ∧
    (∃ l k v r q, exTree.entry 5 = (.VacantAt (node l k v r) q, exTree) ∧
      plug (node l k v r) q = exTree.root ∧
      (((5 : Int) < k ∧ l = leaf) ∨ (k < (5 : Int) ∧ r = leaf))) :=
  ⟨by decide, by decide, C7_miss_frame exTree 5 (by decide) (by decide)⟩

/-- C8: `splay` is a total function of the focused node and its finite
ancestor path — it terminates on every well-formed input — it returns the
splayed node itself (same key and value) as the new root, and on a node
with no parent (empty path) it stops at once, returning that node
unchanged. -/
theorem C8_splay_terminates (l : Tree K V) (k : K) (v : V) (r : Tree K V)
    (p : Path K V) :
    (∃ a b, splay l k v r p = node a k v b) ∧
    splay l k v r [] = node l k v r :=
  ⟨splay_shape l k v r p, rfl⟩

theorem get_min_spec [LinearOrder K] (t : SplayTree K V) (l : Tree K V)
    (k : K) (v : V) (r : Tree K V) (htr : t.root = node l k v r)
    (hb : bst t.root = true) :
    ∃ mk mv b, (t.get_min).1 = some (mk, mv) ∧
      ((t.get_min).2).root = node leaf mk mv b ∧
      mk ∈ keys t.root ∧ ∀ x ∈ keys t.root, mk ≤ x := by
  have hdm := find_min_dirs l k v r [] (by simp)
  have hlm := find_min_left l k v r []
  obtain ⟨bm, hbm⟩ := splay_allLeft (find_min l k v r []).left
    (find_min l k v r []).key (find_min l k v r []).value
    (find_min l k v r []).right (find_min l k v r []).path hdm
  have hbm2 : splay (find_min l k v r []).left (find_min l k v r []).key
      (find_min l k v r []).value (find_min l k v r []).right
      (find_min l k v r []).path =
      node leaf (find_min l k v r []).key (find_min l k v r []).value bm := by
    rw [hbm, hlm]
  have hkeys : keys (node leaf (find_min l k v r []).key
      (find_min l k v r []).value bm) = keys (node l k v r) := by
    rw [← hbm2, keys_splay, find_min_plug]
    rfl
  refine ⟨(find_min l k v r []).key, (find_min l k v r []).value, bm,
    ?_, ?_, ?_, ?_⟩
  · simp [SplayTree.get_min, htr, hbm2, rootPair]
  · simp [SplayTree.get_min, htr, hbm2]
  · rw [htr, ← hkeys]; simp [keys]
  · intro x hx
    rw [htr, ← hkeys] at hx
    have hpw : (keys (node leaf (find_min l k v r []).key
        (find_min l k v r []).value bm)).Pairwise (· < ·) := by
      rw [hkeys]
      have h0 := (bst_iff_pairwise t.root).mp hb
      rwa [htr] at h0
    simp only [keys, List.nil_append] at hx hpw
    rcases List.mem_cons.mp hx with hx | hx
    · exact le_of_eq hx.symm
    · exact le_of_lt ((List.pairwise_cons.mp hpw).1 x hx)

theorem get_max_spec [LinearOrder K] (t : SplayTree K V) (l : Tree K V)
    (k : K) (v : V) (r : Tree K V) (htr : t.root = node l k v r)
    (hb : bst t.root = true) :
    ∃ mk mv a, (t.get_max).1 = some (mk, mv) ∧
      ((t.get_max).2).root = node a mk mv leaf ∧
      mk ∈ keys t.root ∧ ∀ x ∈ keys t.root, x ≤ mk := by
  have hdm := find_max_dirs l k v r [] (by simp)
  have hrm := find_max_right l k v r []
  obtain ⟨am, ham⟩ := splay_allRight (find_max l k v r []).left
    (find_max l k v r []).key (find_max l k v r []).value
    (find_max l k v r []).right (find_max l k v r []).path hdm
  have ham2 : splay (find_max l k v r []).left (find_max l k v r []).key
      (find_max l k v r []).value (find_max l k v r []).right
      (find_max l k v r []).path =
      node am (find_max l k v r []).key (find_max l k v r []).value leaf := by
    rw [ham, hrm]
  have hkeys : keys (node am (find_max l k v r []).key
      (find_max l k v r []).value leaf) = keys (node l k v r) := by
    rw [← ham2, keys_splay, find_max_plug]
    rfl
  refine ⟨(find_max l k v r []).key, (find_max l k v r []).value, am,
    ?_, ?_, ?_, ?_⟩
  · simp [SplayTree.get_max, htr, ham2, rootPair]
  · simp [SplayTree.get_max, htr, ham2]
  · rw [htr, ← hkeys]; simp [keys]
  · intro x hx
    rw [htr, ← hkeys] at hx
    have hpw : (keys (node am (find_max l k v r []).key
        (find_max l k v r []).value leaf)).Pairwise (· < ·) := by
      rw [hkeys]
      have h0 := (bst_iff_pairwise t.root).mp hb
      rwa [htr] at h0
    simp only [keys] at hx hpw
    rcases List.mem_append.mp hx with hx | hx
    · exact le_of_lt ((List.pairwise_append.mp hpw).2.2 x hx _
        (List.mem_cons_self _ _))
    · rcases List.mem_cons.mp hx with hx | hx
      · exact le_of_eq hx
      · simp [keys] at hx

/-- C9: `get_min` and `get_max` answer `none` exactly on the empty tree;
on a non-empty binary-search tree they return the node carrying the
minimum (respectively maximum) key, and that node is the tree's root
afterwards, splayed so that its inner child slot faces the rest of the
tree. -/
theorem C9_min_max [LinearOrder K] (t : SplayTree K V)
    (hb : bst t.root = true) :
    ((t.get_min).1 = none ↔ t.root = leaf) ∧
    ((t.get_max).1 = none ↔ t.root = leaf) ∧
    (t.root ≠ leaf →
      (∃ mk mv b, (t.get_min).1 = some (mk, mv) ∧
        ((t.get_min).2).root = node leaf mk mv b ∧
        mk ∈ keys t.root ∧ ∀ x ∈ keys t.root, mk ≤ x) ∧
      (∃ mk mv a, (t.get_max).1 = some (mk, mv) ∧
        ((t.get_max).2).root = node a mk mv leaf ∧
        mk ∈ keys t.root ∧ ∀ x ∈ keys t.root, x ≤ mk)) := by
  cases htr : t.root with
  | leaf =>
    refine ⟨?_, ?_, ?_⟩
    · simp [SplayTree.get_min, htr]
    · simp [SplayTree.get_max, htr]
    · intro h; exact absurd rfl h
  | node l k v r =>
    obtain ⟨mk, mv, bm, hmin⟩ := get_min_spec t l k v r htr hb
    obtain ⟨mk2, mv2, am, hmax⟩ := get_max_spec t l k v r htr hb
    rw [htr] at hmin hmax
    refine ⟨?_, ?_, fun _ => ⟨⟨mk, mv, bm, hmin⟩, ⟨mk2, mv2, am, hmax⟩⟩⟩
    · rw [hmin.1]; simp [htr]
    · rw [hmax.1]; simp [htr]

/-- C9 witness: the sample tree is non-empty and a binary-search tree. -/
theorem C9_min_max_witness :
    bst exTree.root = true ∧
    (((exTree.get_min).1 = none ↔ exTree.root = leaf) ∧
     ((exTree.get_max).1 = none ↔ exTree.root = leaf) ∧
     (exTree.root ≠ leaf →
       (∃ mk mv b, (exTree.get_min).1 = some (mk, mv) ∧
         ((exTree.get_min).2).root = node leaf mk mv b ∧
         mk ∈ keys exTree.root ∧ ∀ x ∈ keys exTree.root, mk ≤ x) ∧
       (∃ mk mv a, (exTree.get_max).1 = some (mk, mv) ∧
         ((exTree.get_max).2).root = node a mk mv leaf ∧
         mk ∈ keys exTree.root ∧ ∀ x ∈ keys exTree.root, x ≤ mk))) :=
  ⟨by decide, C9_min_max exTree (by decide)⟩

/-- C10: `contains_key key` answers `true` exactly when `key` is in the
binary-search tree; on a hit the tree has been restructured so that the
root holds `key` (the membership test is `get(key).is_some()` and so splays
like `get`); on a miss the tree is handed back unchanged. -/
theorem C10_contains_key [LinearOrder K] (t : SplayTree K V) (key : K)
    (hb : bst t.root = true) :
    ((t.contains_key key).1 = true ↔ key ∈ keys t.root) ∧
    ((t.contains_key key).1 = true →
      ∃ a v b, ((t.contains_key key).2).root = node a key v b) ∧
    ((t.contains_key key).1 = false → (t.contains_key key).2 = t) := by
  cases hf : find_ptr key t.root [] with
  | Found nt =>
    obtain ⟨⟨a, v, b, hnt⟩, _, hmem⟩ := find_found key t.root [] nt hf
    subst hnt
    refine ⟨?_, ?_, ?_⟩
    · simp [SplayTree.contains_key, SplayTree.get, hf, rootPair, hmem]
    · intro _
      exact ⟨a, v, b, by simp [SplayTree.contains_key, SplayTree.get, hf]⟩
    · intro hfalse
      simp [SplayTree.contains_key, SplayTree.get, hf, rootPair] at hfalse
  | GoDown foc q =>
    have hcf : (t.contains_key key).1 = false := by
      simp [SplayTree.contains_key, SplayTree.get, hf]
    refine ⟨?_, ?_, ?_⟩
    · rw [hcf]
      simp only [Bool.false_eq_true, false_iff]
      intro hm
      obtain ⟨nt, hnt⟩ := find_hit key t.root hb hm []
      rw [hf] at hnt
      cases hnt
    · intro h
      rw [hcf] at h
      exact absurd h (by simp)
    · intro _
      simp [SplayTree.contains_key, SplayTree.get, hf]
  | NotFound =>
    have hcf : (t.contains_key key).1 = false := by
      simp [SplayTree.contains_key, SplayTree.get, hf]
    refine ⟨?_, ?_, ?_⟩
    · rw [hcf]
      simp only [Bool.false_eq_true, false_iff]
      intro hm
      obtain ⟨nt, hnt⟩ := find_hit key t.root hb hm []
      rw [hf] at hnt
      cases hnt
    · intro h
      rw [hcf] at h
      exact absurd h (by simp)
    · intro _
      simp [SplayTree.contains_key, SplayTree.get, hf]

/-- C10 witness: membership of key 1 in the sample tree. -/
theorem C10_contains_key_witness :
    bst exTree.root = true ∧
    ((((exTree.contains_key 1).1 = true ↔ (1 : Int) ∈ keys exTree.root) ∧
      ((exTree.contains_key 1).1 = true →
        ∃ a v b, ((exTree.contains_key 1).2).root = node a 1 v b) ∧
      ((exTree.contains_key 1).1 = false →
        (exTree.contains_key 1).2 = exTree))) :=
  ⟨by decide, C10_contains_key exTree 1 (by decide)⟩

end SplayRs
